import Mathlib

/-!
Verification of the count_exts utility (src/main.rs).

The program reads lines from standard input, trims each line, skips blank
lines, derives a lowercased file-extension key using Rust's
Path::extension semantics, tallies occurrences per key in a map, sorts the
(key, count) pairs ascending by count, and prints one formatted line per
pair.  Strings are modelled as lists of characters; the tally map is
modelled as an insertion-ordered association list with unique keys, which
matches the observable behaviour of the HashMap with the entry API.
-/

namespace CountExts

/-- Rust's char::is_whitespace: the Unicode White_Space property
(U+0009..U+000D, U+0020, U+0085, U+00A0, U+1680, U+2000..U+200A,
U+2028, U+2029, U+202F, U+205F, U+3000). Used by str::trim. -/
def isRustWhitespace (c : Char) : Bool :=
  (0x09 ≤ c.val && c.val ≤ 0x0D) || c.val == 0x20 || c.val == 0x85 ||
  c.val == 0xA0 || c.val == 0x1680 ||
  (0x2000 ≤ c.val && c.val ≤ 0x200A) || c.val == 0x2028 || c.val == 0x2029 ||
  c.val == 0x202F || c.val == 0x205F || c.val == 0x3000

/-- Rust's str::trim: drop whitespace from both ends
(line 39 of main.rs: line?.trim().to_string()). -/
def trim (s : List Char) : List Char :=
  ((s.dropWhile isRustWhitespace).reverse.dropWhile isRustWhitespace).reverse

/-- Rust's str::to_lowercase, modelled as the per-character case folding
(which agrees with Rust on every ASCII character, the relevant key space). -/
def lowercase (s : List Char) : List Char :=
  s.map Char.toLower

/-- Split a string on the path separator, keeping empty chunks
(the raw component strings of a Unix path). -/
def splitSlash : List Char → List (List Char)
  | [] => [[]]
  | c :: rest =>
    match splitSlash rest with
    | [] => [[]]
    | seg :: segs => if c = '/' then [] :: seg :: segs else (c :: seg) :: segs

/-- Rust's Path::file_name on a Unix path: the last component after
normalization (empty chunks from repeated separators and "." chunks are
dropped); none when no component remains or the last component is "..". -/
def fileName (p : List Char) : Option (List Char) :=
  match ((splitSlash p).filter (fun seg => !seg.isEmpty && seg != ['.'])).getLast? with
  | none => none
  | some seg => if seg = ['.', '.'] then none else some seg

/-- Split a file name at its last dot, returning (before, after), neither
including the dot itself; none when the name contains no dot. -/
def splitLastDot : List Char → Option (List Char × List Char)
  | [] => none
  | c :: rest =>
    match splitLastDot rest with
    | some (b, a) => some (c :: b, a)
    | none => if c = '.' then some ([], rest) else none

/-- Rust's rsplit_file_at_dot: ".." is kept whole; otherwise split at the
last dot, and when everything before that dot is empty (the name starts
with its only dot) the name is kept whole with no after-part. -/
def rsplitFileAtDot (file : List Char) : Option (List Char) × Option (List Char) :=
  if file = ['.', '.'] then (some file, none)
  else
    match splitLastDot file with
    | none => (none, some file)
    | some (b, a) => if b = [] then (some file, none) else (some b, some a)

/-- Rust's extension on a file name: the after-part of rsplit_file_at_dot,
present only when the before-part is present. -/
def extensionOf (file : List Char) : Option (List Char) :=
  match rsplitFileAtDot file with
  | (some _, some a) => some a
  | _ => none

/-- Rust's Path::extension: the extension of the file name, if any. -/
def pathExtension (p : List Char) : Option (List Char) :=
  (fileName p).bind extensionOf

/-- The extension key derived in main.rs lines 45-48:
Path::new(&path).extension().and_then(to_str).map_or_else(String::new, to_lowercase).
The to_str step is the identity here since lines are already decoded text. -/
def extKey (p : List Char) : List Char :=
  match pathExtension p with
  | none => []
  | some e => lowercase e

/-- One HashMap update, main.rs line 50:
counts.entry(ext).or_insert(0) += 1, on the association-list model. -/
def bump : List (List Char × Nat) → List Char → List (List Char × Nat)
  | [], k => [(k, 1)]
  | (k', c) :: rest, k =>
    if k' = k then (k', c + 1) :: rest else (k', c) :: bump rest k

/-- One iteration of the read loop, main.rs lines 38-51: trim the line,
skip it if empty, otherwise bump the derived extension key. -/
def ingest (counts : List (List Char × Nat)) (line : List Char) :
    List (List Char × Nat) :=
  let path := trim line
  if path = [] then counts else bump counts (extKey path)

/-- The tally after the whole read loop, starting from the empty map. -/
def tally (lines : List (List Char)) : List (List Char × Nat) :=
  lines.foldl ingest []

/-- main.rs lines 54-55: collect the pairs and sort ascending by count
(sort_by_key is a stable sort; HashMap iteration order is modelled as
insertion order, which the sortedness and count claims do not depend on). -/
def sortByCount (counts : List (List Char × Nat)) : List (List Char × Nat) :=
  counts.mergeSort (fun a b => a.2 ≤ b.2)

/-- main.rs lines 58-62: the display label for a key. -/
def displayLabel (ext : List Char) : List Char :=
  if ext = [] then "[no extension]".data else '.' :: ext

/-- main.rs line 63: the printed line for one pair,
println!("{ext_display}: {count}"). -/
def reportLine (p : List Char × Nat) : List Char :=
  displayLabel p.1 ++ ": ".data ++ (Nat.repr p.2).data

/-- The full report: one formatted line per pair, in sorted order
(main.rs lines 54-64). -/
def report (counts : List (List Char × Nat)) : List (List Char) :=
  (sortByCount counts).map reportLine

/-- The read loop over a stream of line-read results, main.rs lines 38-51:
the first read error aborts the loop (the question-mark operator on line 39),
otherwise every line is ingested. -/
def runTally (counts : List (List Char × Nat)) :
    List (Except Unit (List Char)) → Except Unit (List (List Char × Nat))
  | [] => Except.ok counts
  | Except.error e :: _ => Except.error e
  | Except.ok l :: rest => runTally (ingest counts l) rest

/-- The whole program, main.rs main: run the read loop from the empty map;
a read error propagates out of main (non-zero exit, no report), otherwise
the report is produced and main returns Ok (exit status 0). -/
def run (stream : List (Except Unit (List Char))) :
    Except Unit (List (List Char)) :=
  (runTally [] stream).map report

/-- Observable events of one execution: reading one input line, or
emitting one output line. -/
inductive Ev
  | read (line : List Char)
  | emit (out : List Char)
  deriving DecidableEq

/-- Whether an event is an emit. -/
def Ev.isEmit : Ev → Bool
  | Ev.read _ => false
  | Ev.emit _ => true

/-- The event trace of the output phase: one emit per report line. -/
def emitEvents (counts : List (List Char × Nat)) : List Ev :=
  (report counts).map Ev.emit

/-- The event trace of main from a given tally state: first the read loop
(one read event per remaining input line, updating the tally), then the
output phase. -/
def ingestEvents (counts : List (List Char × Nat)) :
    List (List Char) → List Ev
  | [] => emitEvents counts
  | l :: rest => Ev.read l :: ingestEvents (ingest counts l) rest

/-- The event trace of a whole successful execution of main. -/
def execEvents (lines : List (List Char)) : List Ev :=
  ingestEvents [] lines

/-- The count stored for a key (0 when the key is absent, matching
or_insert(0)). -/
def getCount : List (List Char × Nat) → List Char → Nat
  | [], _ => 0
  | (k', c) :: rest, k => if k' = k then c else getCount rest k

/-- The sum of all counts in a tally. -/
def sumCounts (counts : List (List Char × Nat)) : Nat :=
  (counts.map Prod.snd).sum

/-- The test helper count_extensions (main.rs lines 82-96): same extension
derivation and counting as the main loop, but the emptiness check is on the
raw line, without trimming. -/
def countStep (counts : List (List Char × Nat)) (path : List Char) :
    List (List Char × Nat) :=
  if path = [] then counts else bump counts (extKey path)

/-- The tally computed by the test helper count_extensions over its input. -/
def countExtensions (input : List (List Char)) : List (List Char × Nat) :=
  input.foldl countStep []

/-- The spec's statement of the extension-key rule, written from its words:
in the final path segment (the path's final component), take the substring
after the last ".", provided that substring is non-empty and the "." is not
the first character of the segment; lowercase it; otherwise (no
qualifying extension) the key is the empty string. -/
def specExtKey (p : List Char) : List Char :=
  match fileName p with
  | none => []
  | some seg =>
    match splitLastDot seg with
    | none => []
    | some (b, a) =>
      if a = [] then []
      else if b = [] then []
      else lowercase a

/-! ### Helper lemmas -/

theorem fileName_ne_dotdot {p seg : List Char} (h : fileName p = some seg) :
    seg ≠ ['.', '.'] := by
  unfold fileName at h
  rcases hg : ((splitSlash p).filter (fun seg => !seg.isEmpty && seg != ['.'])).getLast? with _ | seg'
  · rw [hg] at h; simp at h
  · rw [hg] at h
    by_cases hd : seg' = ['.', '.']
    · simp [hd] at h
    · simp only [if_neg hd, Option.some.injEq] at h
      exact h ▸ hd

theorem extKey_eq_specExtKey (p : List Char) : extKey p = specExtKey p := by
  unfold extKey specExtKey pathExtension
  rcases hf : fileName p with _ | seg
  · rfl
  · have hseg := fileName_ne_dotdot hf
    simp only [Option.bind]
    unfold extensionOf rsplitFileAtDot
    rw [if_neg hseg]
    rcases hs : splitLastDot seg with _ | ⟨b, a⟩
    · rfl
    · by_cases hb : b = []
      · subst hb
        simp only [if_pos rfl]
        by_cases ha : a = [] <;> simp [ha]
      · simp only [if_neg hb]
        by_cases ha : a = [] <;> simp [ha, lowercase]

theorem ingest_of_nonblank {line : List Char} (counts : List (List Char × Nat))
    (h : trim line ≠ []) : ingest counts line = bump counts (extKey (trim line)) := by
  simp [ingest, h]

theorem ingest_of_blank {line : List Char} (counts : List (List Char × Nat))
    (h : trim line = []) : ingest counts line = counts := by
  simp [ingest, h]

/-! ### Claim theorems -/

/-- C1: for every non-blank trimmed input line, the key bumped by the read
loop is exactly the key described by the spec's extraction rule: the
lowercased substring after the last dot of the final path segment when that
substring is non-empty and the dot is not the segment's first character,
and the empty string otherwise. -/
theorem C1_derived_key_matches_spec (counts : List (List Char × Nat))
    (line : List Char) (h : trim line ≠ []) :
    ingest counts line = bump counts (specExtKey (trim line)) := by
  rw [ingest_of_nonblank counts h, extKey_eq_specExtKey]

/-- C1 witness: a concrete non-blank line, with the spec key evaluated. -/
theorem C1_witness :
    trim " a/file1.TXT ".data ≠ [] ∧
    ingest [] " a/file1.TXT ".data = bump [] (specExtKey (trim " a/file1.TXT ".data)) ∧
    specExtKey (trim " a/file1.TXT ".data) = "txt".data :=
  ⟨by decide, C1_derived_key_matches_spec [] " a/file1.TXT ".data (by decide), by decide⟩

/-- C5: a line that trims to empty leaves the tally unchanged. -/
theorem C5_blank_line_contributes_nothing (counts : List (List Char × Nat))
    (line : List Char) (h : trim line = []) : ingest counts line = counts :=
  ingest_of_blank counts h

/-- C5 witness: a concrete whitespace-only line and a concrete tally. -/
theorem C5_witness :
    trim "   ".data = [] ∧
    ingest [("txt".data, 2)] "   ".data = [("txt".data, 2)] :=
  ⟨by decide, C5_blank_line_contributes_nothing [("txt".data, 2)] "   ".data (by decide)⟩

/-- C9: the code of the test helper count_extensions diverges from the main
ingest loop, contradicting the helper's own documentation that it simulates
the main program's counting logic: the helper omits the trim step, so a
whitespace-only line is counted under the empty key instead of skipped, and
a path with trailing whitespace yields a key with trailing whitespace. -/
theorem C9_count_extensions_diverges_from_main :
    countExtensions ["  ".data] = [([], 1)] ∧ tally ["  ".data] = [] ∧
    countExtensions ["a.txt ".data] = [("txt ".data, 1)] ∧
    tally ["a.txt ".data] = [("txt".data, 1)] := by
  decide

theorem sumCounts_bump (counts : List (List Char × Nat)) (k : List Char) :
    sumCounts (bump counts k) = sumCounts counts + 1 := by
  induction counts with
  | nil => rfl
  | cons p rest ih =>
    obtain ⟨k', c⟩ := p
    by_cases h : k' = k
    · simp [bump, h, sumCounts]
      omega
    · simp only [bump, if_neg h, sumCounts, List.map_cons, List.sum_cons] at *
      omega

theorem getCount_bump_self (counts : List (List Char × Nat)) (k : List Char) :
    getCount (bump counts k) k = getCount counts k + 1 := by
  induction counts with
  | nil => simp [bump, getCount]
  | cons p rest ih =>
    obtain ⟨k', c⟩ := p
    by_cases h : k' = k
    · simp [bump, getCount, h]
    · simp [bump, getCount, h, ih]

theorem getCount_bump_ne (counts : List (List Char × Nat)) {k k2 : List Char}
    (hne : k2 ≠ k) : getCount (bump counts k) k2 = getCount counts k2 := by
  induction counts with
  | nil => simp [bump, getCount, Ne.symm hne]
  | cons p rest ih =>
    obtain ⟨k', c⟩ := p
    by_cases h : k' = k
    · subst h
      simp [bump, getCount, Ne.symm hne]
    · by_cases h2 : k' = k2
      · simp [bump, getCount, h, h2, hne]
      · simp [bump, getCount, h, h2, ih]

theorem sumCounts_foldl (ls : List (List Char)) :
    ∀ counts, sumCounts (ls.foldl ingest counts) =
      sumCounts counts + (ls.filter (fun l => trim l ≠ [])).length := by
  induction ls with
  | nil => intro counts; simp
  | cons l rest ih =>
    intro counts
    simp only [List.foldl_cons, List.filter_cons]
    by_cases h : trim l = []
    · simp [ingest_of_blank counts h, h, ih]
    · rw [ingest_of_nonblank counts h, ih, sumCounts_bump]
      simp [h]
      omega

theorem getCount_foldl (k : List Char) (ls : List (List Char)) :
    ∀ counts, getCount (ls.foldl ingest counts) k =
      getCount counts k +
        (ls.filter (fun l => trim l ≠ [] ∧ extKey (trim l) = k)).length := by
  induction ls with
  | nil => intro counts; simp
  | cons l rest ih =>
    intro counts
    simp only [List.foldl_cons, List.filter_cons]
    by_cases h : trim l = []
    · simp [ingest_of_blank counts h, h, ih]
    · rw [ingest_of_nonblank counts h, ih]
      by_cases h2 : extKey (trim l) = k
      · rw [h2, getCount_bump_self]
        simp [h, h2]
        omega
      · rw [getCount_bump_ne counts (fun he => h2 he.symm)]
        simp [h, h2]

/-- C2: the counts partition the non-blank lines: the total of the tally
(and of the sorted pairs the report prints) is the number of lines that are
non-empty after trimming, and each key's count is the number of such lines
deriving that key. -/
theorem C2_counts_partition_nonblank_lines (lines : List (List Char)) :
    sumCounts (tally lines) = (lines.filter (fun l => trim l ≠ [])).length ∧
    sumCounts (sortByCount (tally lines)) =
      (lines.filter (fun l => trim l ≠ [])).length ∧
    ∀ k, getCount (tally lines) k =
      (lines.filter (fun l => trim l ≠ [] ∧ extKey (trim l) = k)).length := by
  have hsum : sumCounts (tally lines) =
      (lines.filter (fun l => trim l ≠ [])).length := by
    have h := sumCounts_foldl lines []
    simpa [tally, sumCounts] using h
  refine ⟨hsum, ?_, fun k => ?_⟩
  · have hperm : List.Perm (sortByCount (tally lines)) (tally lines) :=
      List.mergeSort_perm _ _
    have hs : sumCounts (sortByCount (tally lines)) = sumCounts (tally lines) :=
      (hperm.map Prod.snd).sum_eq
    rw [hs, hsum]
  · have h := getCount_foldl k lines []
    simp only [getCount, Nat.zero_add] at h
    exact h

/-- C3: the sorted pair sequence that the report prints is ascending by
count: any pair's count is at most any later pair's count. -/
theorem C3_report_sorted_by_count (lines : List (List Char)) :
    (sortByCount (tally lines)).Pairwise (fun a b => a.2 ≤ b.2) := by
  unfold sortByCount
  refine List.Pairwise.imp ?_ (List.sorted_mergeSort ?_ ?_ (tally lines))
  · intro a b hab
    simpa using hab
  · intro a b c hab hbc
    simp only [decide_eq_true_eq] at *
    omega
  · intro a b
    simp only [Bool.or_eq_true, decide_eq_true_eq]
    omega

/-- C4: case-insensitivity: two non-blank lines whose raw extensions agree
up to character case are counted under one and the same tally key. -/
theorem C4_case_insensitive_key (l1 l2 e1 e2 : List Char)
    (h1 : trim l1 ≠ []) (h2 : trim l2 ≠ [])
    (he1 : pathExtension (trim l1) = some e1)
    (he2 : pathExtension (trim l2) = some e2)
    (hcase : lowercase e1 = lowercase e2) :
    ∀ counts, ingest counts l1 = bump counts (extKey (trim l1)) ∧
      ingest counts l2 = bump counts (extKey (trim l1)) := by
  intro counts
  have hk : extKey (trim l2) = extKey (trim l1) := by
    simp [extKey, he1, he2, hcase]
  exact ⟨ingest_of_nonblank counts h1, by rw [ingest_of_nonblank counts h2, hk]⟩

/-- C4 witness: file1.TXT and file2.txt are both counted under the key
txt. -/
theorem C4_witness :
    ingest [] "file1.TXT".data = [("txt".data, 1)] ∧
    ingest [] "file2.txt".data = [("txt".data, 1)] := by
  have h := C4_case_insensitive_key "file1.TXT".data "file2.txt".data
    "TXT".data "txt".data (by decide) (by decide) (by decide) (by decide)
    (by decide) []
  exact ⟨h.1.trans (by decide), h.2.trans (by decide)⟩

theorem bump_pos (k : List Char) :
    ∀ counts : List (List Char × Nat), (∀ p ∈ counts, 1 ≤ p.2) →
      ∀ p ∈ bump counts k, 1 ≤ p.2 := by
  intro counts
  induction counts with
  | nil =>
    intro h p hp
    simp [bump] at hp
    simp [hp]
  | cons q rest ih =>
    obtain ⟨k', c⟩ := q
    intro h p hp
    by_cases hk : k' = k
    · simp only [bump, if_pos hk] at hp
      rcases List.mem_cons.mp hp with rfl | hp2
      · exact Nat.succ_le_succ (Nat.zero_le c)
      · exact h p (List.mem_cons_of_mem _ hp2)
    · simp only [bump, if_neg hk] at hp
      rcases List.mem_cons.mp hp with rfl | hp2
      · exact h (k', c) (List.mem_cons_self _ _)
      · exact ih (fun q hq => h q (List.mem_cons_of_mem _ hq)) p hp2

theorem tally_pos (ls : List (List Char)) :
    ∀ counts, (∀ p ∈ counts, 1 ≤ p.2) →
      ∀ p ∈ ls.foldl ingest counts, 1 ≤ p.2 := by
  induction ls with
  | nil => intro counts h; simpa using h
  | cons l rest ih =>
    intro counts h
    simp only [List.foldl_cons]
    by_cases hb : trim l = []
    · rw [ingest_of_blank counts hb]
      exact ih counts h
    · rw [ingest_of_nonblank counts hb]
      exact ih _ (bump_pos _ counts h)

/-- C10: every pair present in the final tally, and hence every pair the
report prints, carries a count of at least 1. -/
theorem C10_report_counts_positive (lines : List (List Char)) :
    ∀ k c, ((k, c) ∈ tally lines → 1 ≤ c) ∧
      ((k, c) ∈ sortByCount (tally lines) → 1 ≤ c) := by
  intro k c
  have ht : ∀ p ∈ tally lines, 1 ≤ p.2 := tally_pos lines [] (by simp)
  refine ⟨fun hm => ht (k, c) hm, fun hm => ?_⟩
  exact ht (k, c) (List.mem_mergeSort.mp hm)

/-- C10 witness: a concrete tally pair and its positive count. -/
theorem C10_witness :
    ("txt".data, 1) ∈ tally ["a.txt".data] ∧ 1 ≤ 1 :=
  ⟨by decide,
    (C10_report_counts_positive ["a.txt".data] "txt".data 1).1 (by decide)⟩

/-- C6: the report emits exactly one line per sorted (key, count) pair,
formatted as the label, a colon and a space, then the count, where the
label is the literal marker for the empty key and a dot followed by the
key otherwise; every emitted line arises this way from a tally pair. -/
theorem C6_report_line_format (lines : List (List Char)) :
    (report (tally lines) = (sortByCount (tally lines)).map
      (fun p => (if p.1 = [] then "[no extension]".data else '.' :: p.1) ++
        ": ".data ++ (Nat.repr p.2).data)) ∧
    ∀ ln ∈ report (tally lines), ∃ ext c, (ext, c) ∈ tally lines ∧
      ln = (if ext = [] then "[no extension]".data else '.' :: ext) ++
        ": ".data ++ (Nat.repr c).data := by
  constructor
  · rfl
  · intro ln hln
    simp only [report, List.mem_map] at hln
    obtain ⟨p, hp, rfl⟩ := hln
    exact ⟨p.1, p.2, List.mem_mergeSort.mp hp, rfl⟩

/-- C6 witness: the one report line of a one-line input, decomposed. -/
theorem C6_witness :
    ∃ ext c, (ext, c) ∈ tally ["a.txt".data] ∧
      ".txt: 1".data =
        (if ext = [] then "[no extension]".data else '.' :: ext) ++
          ": ".data ++ (Nat.repr c).data :=
  (C6_report_line_format ["a.txt".data]).2 ".txt: 1".data (by
    have ht : tally ["a.txt".data] = [("txt".data, 1)] := by decide
    rw [ht]
    simp only [report, sortByCount, List.mergeSort_singleton, List.map_cons,
      List.map_nil]
    refine List.mem_singleton.mpr ?_
    decide)

theorem runTally_error (stream : List (Except Unit (List Char))) :
    ∀ counts, Except.error () ∈ stream →
      runTally counts stream = Except.error () := by
  induction stream with
  | nil => intro counts h; simp at h
  | cons x rest ih =>
    intro counts h
    cases x with
    | error e => rfl
    | ok l =>
      rcases List.mem_cons.mp h with he | he
      · exact absurd he (by simp)
      · exact ih (ingest counts l) he

theorem runTally_ok (ls : List (List Char)) :
    ∀ counts, runTally counts (ls.map Except.ok) =
      Except.ok (ls.foldl ingest counts) := by
  induction ls with
  | nil => intro counts; rfl
  | cons l rest ih => intro counts; exact ih (ingest counts l)

/-- C7: a read failure anywhere in the stream makes the whole run an error
(non-zero exit) with no output at all, while an error-free stream yields
exit status 0 and exactly the full report of the tally. -/
theorem C7_read_failure_aborts (stream : List (Except Unit (List Char))) :
    (Except.error () ∈ stream → run stream = Except.error ()) ∧
    (∀ ls, stream = ls.map Except.ok →
      run stream = Except.ok (report (tally ls))) := by
  constructor
  · intro h
    unfold run
    rw [runTally_error stream [] h]
    rfl
  · intro ls h
    subst h
    unfold run
    rw [runTally_ok ls []]
    rfl

/-- C7 witness: a failing stream and an error-free stream, both concrete. -/
theorem C7_witness :
    run [Except.ok "a.txt".data, Except.error ()] = Except.error () ∧
    run [Except.ok "a.txt".data] = Except.ok (report (tally ["a.txt".data])) :=
  ⟨(C7_read_failure_aborts _).1 (by simp),
    (C7_read_failure_aborts _).2 ["a.txt".data] rfl⟩

theorem isEmit_ingestEvents (ls : List (List Char)) :
    ∀ (counts : List (List Char × Nat)) (n : Nat)
      (h : n < (ingestEvents counts ls).length),
      ((ingestEvents counts ls)[n]).isEmit = decide (ls.length ≤ n) := by
  induction ls with
  | nil =>
    intro counts n h
    simp only [ingestEvents, emitEvents] at h ⊢
    rw [List.getElem_map]
    simp [Ev.isEmit]
  | cons l rest ih =>
    intro counts n h
    cases n with
    | zero => simp [ingestEvents, Ev.isEmit]
    | succ m =>
      have h' : m < (ingestEvents (ingest counts l) rest).length := by
        simp only [ingestEvents, List.length_cons] at h
        omega
      simp only [ingestEvents, List.getElem_cons_succ]
      rw [ih (ingest counts l) m h']
      simp only [List.length_cons]
      rw [decide_eq_decide]
      omega

theorem isEmit_execEvents (lines : List (List Char)) (n : Nat)
    (h : n < (execEvents lines).length) :
    ((execEvents lines)[n]).isEmit = decide (lines.length ≤ n) :=
  isEmit_ingestEvents lines [] n h

/-- C8: in the event trace of any execution, every ingest step precedes
every emit step: once an event is an emit, every event from that position
on is an emit, so no output line is emitted before the input is consumed. -/
theorem C8_all_reads_precede_emits (lines : List (List Char)) (i j : Nat)
    (hi : i < (execEvents lines).length) (hj : j < (execEvents lines).length)
    (hij : i ≤ j) (hemit : ((execEvents lines)[i]).isEmit = true) :
    ((execEvents lines)[j]).isEmit = true := by
  rw [isEmit_execEvents lines i hi] at hemit
  rw [isEmit_execEvents lines j hj]
  simp only [decide_eq_true_eq] at hemit ⊢
  omega

theorem execEvents_example :
    execEvents ["a.txt".data] =
      [Ev.read "a.txt".data, Ev.emit ".txt: 1".data] := by
  simp only [execEvents, ingestEvents, emitEvents]
  have ht : ingest [] "a.txt".data = [("txt".data, 1)] := by decide
  rw [ht]
  simp only [report, sortByCount, List.mergeSort_singleton, List.map_cons,
    List.map_nil]
  decide

/-- C8 witness: in the trace of a one-line input, position 1 (after the
single read) is an emit. -/
theorem C8_witness :
    ((execEvents ["a.txt".data]).get
      ⟨1, by rw [execEvents_example]; exact Nat.one_lt_two⟩).isEmit = true := by
  have h1 : 1 < (execEvents ["a.txt".data]).length := by
    rw [execEvents_example]
    exact Nat.one_lt_two
  refine C8_all_reads_precede_emits ["a.txt".data] 1 1 h1 h1 (Nat.le_refl 1) ?_
  rw [isEmit_execEvents ["a.txt".data] 1 h1]
  decide

end CountExts
